import Mathlib

/-!
Verification of the rhythm capture, quantization and score-assembly engine of
`src/index.tsx` (the live copy of the app, i.e. the second document in the
file, whose `App` is rendered at the end; all line numbers below refer to it).

Modelling conventions:
* Wall-clock times and millisecond quantities are rationals (`ℚ`).
* JS numbers that the program keeps integral (midi numbers, grid indices,
  subdivision counts) are integers (`ℤ`) or naturals (`ℕ`).
* `Math.round` is `jround`, `Math.floor` of an exact division is `Int.fdiv`,
  and the JS `%` operator (sign of the dividend) is `Int.tmod`.
* `while` loops are modelled with explicit fuel; each model supplies fuel
  which suffices for every input the program can produce.
-/

namespace PianoTrainer

/-- JS `Math.round`: round half toward positive infinity. -/
def jround (q : ℚ) : ℤ := ⌊q + 1/2⌋

/-- Session configuration: the `tempo`, `timeSig = {beats, value}` and
`measures` react states of `App` (lines 1166-1168), snapshotted for a run. -/
structure Config where
  tempo : ℚ
  beats : ℕ
  value : ℕ
  measures : ℕ
deriving DecidableEq

/-- The value ranges the UI controls offer: tempo 40-240 BPM, beats per
measure among {1,2,3,4,6,9,12}, beat value among {2,4,8}, 1-32 measures. -/
def ValidConfig (c : Config) : Prop :=
  40 ≤ c.tempo ∧ c.tempo ≤ 240 ∧
  c.beats ∈ ([1, 2, 3, 4, 6, 9, 12] : List ℕ) ∧
  c.value ∈ ([2, 4, 8] : List ℕ) ∧
  1 ≤ c.measures ∧ c.measures ≤ 32

instance (c : Config) : Decidable (ValidConfig c) := by
  unfold ValidConfig; infer_instance

/-- `sixteenthsPerBeat = 16 / timeSig.value` (lines 851, 1207, 1399, 1423).
The source divides floats; for every offered value (2, 4 and 8) the division
is exact, so natural division is faithful. -/
def spbN (c : Config) : ℕ := 16 / c.value

/-- `beatDurMs = (60.0 / tempo) * 1000` (lines 1206, 1395, 1422). -/
def beatDurMs (c : Config) : ℚ := 60 / c.tempo * 1000

/-- `sixteenthDurMs = beatDurMs / sixteenthsPerBeat` (lines 1208, 1400, 1424). -/
def sixDurMs (c : Config) : ℚ := beatDurMs c / (spbN c : ℚ)

/-- `const command = statusByte & 0xF0` (line 1364): mask away the channel. -/
def command (statusByte : ℕ) : ℕ := statusByte &&& 0xF0

/-- `isNoteOn = (command === 0x90) && vel > 0` (line 1366). -/
def isNoteOn (statusByte vel : ℕ) : Bool :=
  (command statusByte == 0x90) && decide (0 < vel)

/-- `isNoteOff = (command === 0x80) || ((command === 0x90) && vel === 0)`
(line 1367). -/
def isNoteOff (statusByte vel : ℕ) : Bool :=
  (command statusByte == 0x80) || ((command statusByte == 0x90) && (vel == 0))

/-- Value stored in the `activeNotes` map by the note-on handler
(line 1413). -/
structure ActiveEntry where
  startTime : ℚ
  mIdx : ℤ
  bIdx : ℤ
  sIdx : ℤ
  diffMs : ℚ
deriving DecidableEq

/-- A finalized recorded note (interface at lines 814-822). The random `id`
string carries no information and is omitted. -/
structure RecordedNote where
  midi : ℤ
  diffMs : ℚ
  measure : ℤ
  beatIndex : ℤ
  sixteenthIndex : ℤ
  durationSixteenths : ℤ
deriving DecidableEq

/-- Duration resolution: the note-off handler (lines 1418-1441) and the force
flush in `stop` (lines 1210-1228) run the same computation, differing only in
the end timestamp (`perfTime` vs `now - latencyMs`), a parameter here.
Duration is `max(1, round(durMs / sixteenthDurMs))`; a `RecordedNote` is
produced only when the entry's measure lies in `[0, measures)`. -/
def resolveEntry (cfg : Config) (midi : ℤ) (e : ActiveEntry) (endTime : ℚ) :
    Option RecordedNote :=
  let durMs := endTime - e.startTime
  let durationSixteenths := max 1 (jround (durMs / sixDurMs cfg))
  if 0 ≤ e.mIdx ∧ e.mIdx < (cfg.measures : ℤ) then
    some { midi := midi, diffMs := e.diffMs, measure := e.mIdx,
           beatIndex := e.bIdx, sixteenthIndex := e.sIdx,
           durationSixteenths := durationSixteenths }
  else none

/-- The `stop` callback's observable effect on the recorded-note list and the
latency constant (lines 1200-1258): flush every still-active entry with end
time `now - latencyMs`, keep the in-range ones (appended to the session note
list), then — in a calibration run — set the constant to the rounded mean of
all captured deviations if at least one note was captured, and otherwise
report failure, leaving the constant as it currently is. Returns the pair
(latency constant after `stop`, calibration failed). -/
def stopModel (cfg : Config) (active : List (ℤ × ActiveEntry)) (now : ℚ)
    (latencyMs : ℤ) (isLatencyTesting : Bool)
    (sessionNotes : List RecordedNote) : ℤ × Bool :=
  let flushed := active.filterMap
    (fun p => resolveEntry cfg p.1 p.2 (now - (latencyMs : ℚ)))
  let allNotes := sessionNotes ++ flushed
  if isLatencyTesting then
    if 0 < allNotes.length then
      (jround ((allNotes.map (fun n => n.diffMs)).sum / (allNotes.length : ℚ)),
       false)
    else (latencyMs, true)
  else (latencyMs, false)

/-- `testLatency` (lines 1341-1353) sets the latency constant to 0
(`setLatencyMs(0)`, line 1346) and starts a calibration run; the prior
constant is not saved anywhere. Composing with the `stop` that ends the run
gives the constant and failure flag after the whole calibration. -/
def calibrationFlow (_priorLatencyMs : ℤ) (cfg : Config)
    (active : List (ℤ × ActiveEntry)) (now : ℚ)
    (sessionNotes : List RecordedNote) : ℤ × Bool :=
  stopModel cfg active now 0 true sessionNotes

/-- One step of the nearest-beat scan of the note-on handler (lines
1386-1392): beats with index below `timeSig.beats` (the intro) are skipped;
a strictly smaller distance to the event time updates the candidate. The
accumulator is `(bestBeatIdx, minDist)`, with `none` playing `Infinity`. -/
def bestStep (beats : ℕ) (perfTime : ℚ) (acc : ℤ × Option ℚ) (idx : ℕ)
    (t : ℚ) : ℤ × Option ℚ :=
  if idx < beats then acc
  else
    match acc.2 with
    | none => ((idx : ℤ) - (beats : ℤ), some |t - perfTime|)
    | some m =>
      if |t - perfTime| < m then ((idx : ℤ) - (beats : ℤ), some |t - perfTime|)
      else acc

/-- The `beatTimes.forEach((bt, idx) => ...)` traversal, with the running
element index made explicit. -/
def findBestAux (beats : ℕ) (perfTime : ℚ) :
    List ℚ → ℕ → ℤ × Option ℚ → ℤ × Option ℚ
  | [], _, acc => acc
  | t :: rest, idx, acc =>
    findBestAux beats perfTime rest (idx + 1) (bestStep beats perfTime acc idx t)

/-- The full nearest-beat search: `bestBeatIdx = -1`, `minDist = Infinity`,
then scan `state.current.beatTimes` (by predicted `perfTime`). -/
def findBest (beats : ℕ) (beatTimes : List ℚ) (perfTime : ℚ) : ℤ × Option ℚ :=
  findBestAux beats perfTime beatTimes 0 (-1, none)

/-- `while (fSixteenIdx >= sixteenthsPerBeat) { fSixteenIdx -= spb; fBeatIdx++ }`
(line 1407), with fuel. -/
def normGE (spb : ℤ) : ℕ → ℤ → ℤ → ℤ × ℤ
  | 0, s, b => (s, b)
  | fuel + 1, s, b =>
    if spb ≤ s then normGE spb fuel (s - spb) (b + 1) else (s, b)

/-- `while (fSixteenIdx < 0) { fSixteenIdx += spb; fBeatIdx-- }` (line 1408),
with fuel. -/
def normLT (spb : ℤ) : ℕ → ℤ → ℤ → ℤ × ℤ
  | 0, s, b => (s, b)
  | fuel + 1, s, b =>
    if s < 0 then normLT spb fuel (s + spb) (b - 1) else (s, b)

/-- Grid normalization (lines 1406-1408). The fuel `|s| + 1` is enough for
every positive `spb` (each first-loop pass shrinks `s` by `spb ≥ 1`, each
second-loop pass grows it by `spb ≥ 1`), and every offered beat value gives a
positive `spb`. -/
def normalize (spb s b : ℤ) : ℤ × ℤ :=
  let p := normGE spb (s.natAbs + 1) s b
  normLT spb (p.1.natAbs + 1) p.1 p.2

/-- The recording note-on branch (lines 1385-1414): find the nearest
post-intro beat; if one exists, compute the raw subdivision index with
`Math.round`, borrow/carry it into range, split the flat beat index into
measure and beat (`Math.floor` division and JS `%`), and store the active
entry with the residual deviation `rawOffset - sixteenIdxRaw * sixteenthDurMs`.
Returns the entry stored into `activeNotes`, or `none` when `bestBeatIdx < 0`
(no eligible beat in the timeline). -/
def quantizeNoteOn (cfg : Config) (beatTimes : List ℚ) (perfTime : ℚ) :
    Option ActiveEntry :=
  let best := findBest cfg.beats beatTimes perfTime
  if 0 ≤ best.1 then
    let targetBeatTime := beatTimes.getD (best.1 + (cfg.beats : ℤ)).toNat 0
    let rawOffset := perfTime - targetBeatTime
    let sixteenIdxRaw := jround (rawOffset / sixDurMs cfg)
    let p := normalize (spbN cfg : ℤ) sixteenIdxRaw best.1
    some { startTime := perfTime
         , mIdx := p.2.fdiv (cfg.beats : ℤ)
         , bIdx := p.2.tmod (cfg.beats : ℤ)
         , sIdx := p.1
         , diffMs := rawOffset - (sixteenIdxRaw : ℚ) * sixDurMs cfg }
  else none

/-- The beat timeline `tick` (lines 1285-1329) produces when every
audio-to-wall-clock conversion is exact: beat `i` is predicted at
`t0 + i * beatDur`. A full run generates `(measures + 1) * beats` beats (the
`+1` is the intro measure). -/
def idealTimeline (t0 beatDur : ℚ) (n : ℕ) : List ℚ :=
  (List.range n).map (fun i : ℕ => t0 + (i : ℚ) * beatDur)

/-- Absolute subdivision position of a note (`getNotePos`, line 857). -/
def notePos (mS spb : ℤ) (n : RecordedNote) : ℤ :=
  n.measure * mS + n.beatIndex * spb + n.sixteenthIndex

/-- Snap to the largest standard duration not exceeding `maxDur` (the
`allowed = [16, 8, 4, 2, 1]` loops at lines 878-885 and 912-919); the
initial `writeDur = 1` survives when nothing fits. -/
def snapDur (maxDur : ℤ) : ℤ :=
  if 16 ≤ maxDur then 16
  else if 8 ≤ maxDur then 8
  else if 4 ≤ maxDur then 4
  else if 2 ≤ maxDur then 2
  else if 1 ≤ maxDur then 1
  else 1

/-- One emitted unit of the tablature string together with its metadata
entry: `pos` is the cursor value at emission, `dur` the snapped duration
written, and `hits` the notes grouped into the token (`startsAtSlot`; empty
for a rest, matching `hits: null` in the metadata). -/
structure Token where
  isRest : Bool
  pos : ℤ
  dur : ℤ
  hits : List RecordedNote
deriving DecidableEq

/-- The duration written by the note branch of `buildTex` (lines 870-903):
`rawDur` is `Math.max` of the grouped notes' durations (the fold's initial 0
never decides the maximum, since the branch only runs on a nonempty group
and every resolver-produced duration is at least 1), `maxDur` clamps it to
the rest of the measure, and `snapDur` snaps it to the standard set. -/
def noteDur (mS spb : ℤ) (sorted : List RecordedNote) (cur : ℤ) : ℤ :=
  let startsAtSlot := sorted.filter (fun n => notePos mS spb n == cur)
  let rawDur := (startsAtSlot.map (fun n => n.durationSixteenths)).foldr max 0
  let maxDur := min rawDur (mS - cur % mS)
  snapDur maxDur

/-- The duration written by the rest branch of `buildTex` (lines 905-925):
the gap to the first later note (or to the end of the timeline), clamped to
the rest of the measure and snapped. -/
def restDur (mS spb total : ℤ) (sorted : List RecordedNote) (cur : ℤ) : ℤ :=
  let nextNote := sorted.find? (fun n => decide (cur < notePos mS spb n))
  let available := min
    (match nextNote with
     | some n => notePos mS spb n - cur
     | none => total - cur)
    (mS - cur % mS)
  snapDur available

/-- The `while (currentSixteenth < totalSixteenths)` scan of `buildTex`
(lines 860-931), with fuel (`buildTexTokens` supplies enough, since every
iteration advances the cursor by at least one). Note positions are integers,
so the `Math.abs(pos - cur) < 0.1` float tolerance is exact equality, and
`pos > cur + 0.1` is `cur < pos`. The cursor stays nonnegative, so
`Int.emod` agrees with the JS `%`. The cosmetic bar separator written into
the tex string (line 928) is not a token and carries no duration. -/
def buildTexAux (mS spb total : ℤ) (sorted : List RecordedNote) :
    ℕ → ℤ → List Token
  | 0, _ => []
  | fuel + 1, cur =>
    if cur < total then
      let startsAtSlot := sorted.filter (fun n => notePos mS spb n == cur)
      if 0 < startsAtSlot.length then
        ⟨false, cur, noteDur mS spb sorted cur, startsAtSlot⟩ ::
          buildTexAux mS spb total sorted fuel (cur + noteDur mS spb sorted cur)
      else
        ⟨true, cur, restDur mS spb total sorted cur, []⟩ ::
          buildTexAux mS spb total sorted fuel
            (cur + restDur mS spb total sorted cur)
    else []

/-- `measureSixteenths = timeSig.beats * sixteenthsPerBeat` (line 852). -/
def cfgMS (cfg : Config) : ℤ := (cfg.beats : ℤ) * (spbN cfg : ℤ)

/-- `totalSixteenths = measures * measureSixteenths` (line 853). -/
def cfgTotal (cfg : Config) : ℤ := (cfg.measures : ℤ) * cfgMS cfg

/-- The token sequence `buildTex` (lines 841-934) emits: sort the notes by
position (JS `sort` is stable; insertion sort is the matching stable sort)
and run the linear scan from cursor 0. Each `Token` corresponds 1:1 to one
written tex glyph group and one `texMetadata` entry. -/
def buildTexTokens (cfg : Config) (recordedNotes : List RecordedNote) :
    List Token :=
  let spb : ℤ := (spbN cfg : ℤ)
  let mS : ℤ := cfgMS cfg
  let total : ℤ := cfgTotal cfg
  let sorted := recordedNotes.insertionSort
    (fun a b => notePos mS spb a ≤ notePos mS spb b)
  buildTexAux mS spb total sorted total.toNat 0

/-- Total token duration attributed to measure `m` (tokens are attributed to
the measure containing their start; no token spans two measures). -/
def measureSum (mS m : ℤ) (ts : List Token) : ℤ :=
  ((ts.filter (fun t => t.pos / mS == m)).map (fun t => t.dur)).sum

/-! ## Lemmas about valid configurations -/

lemma ValidConfig.tempo_pos {c : Config} (h : ValidConfig c) : 0 < c.tempo :=
  lt_of_lt_of_le (by norm_num) h.1

lemma ValidConfig.beats_pos {c : Config} (h : ValidConfig c) : 0 < c.beats := by
  have := h.2.2.1; simp only [List.mem_cons, List.not_mem_nil, or_false] at this
  rcases this with h' | h' | h' | h' | h' | h' | h' <;> omega

lemma ValidConfig.spb_cases {c : Config} (h : ValidConfig c) :
    spbN c = 8 ∨ spbN c = 4 ∨ spbN c = 2 := by
  have := h.2.2.2.1; simp only [List.mem_cons, List.not_mem_nil, or_false] at this
  rcases this with h' | h' | h' <;> simp [spbN, h']

lemma ValidConfig.spb_two_le {c : Config} (h : ValidConfig c) : 2 ≤ spbN c := by
  rcases h.spb_cases with h' | h' | h' <;> omega

lemma ValidConfig.beatDur_pos {c : Config} (h : ValidConfig c) : 0 < beatDurMs c := by
  have ht := h.tempo_pos
  unfold beatDurMs
  positivity

lemma ValidConfig.sixDur_pos {c : Config} (h : ValidConfig c) : 0 < sixDurMs c := by
  have hb := h.beatDur_pos
  have hsp : (0 : ℚ) < (spbN c : ℚ) := by exact_mod_cast h.spb_two_le.trans_lt' (by norm_num)
  exact div_pos hb hsp

/-- `beatDurMs = sixteenthsPerBeat * sixteenthDurMs` for any valid config. -/
lemma ValidConfig.beatDur_eq {c : Config} (h : ValidConfig c) :
    beatDurMs c = (spbN c : ℚ) * sixDurMs c := by
  have hsp : ((spbN c : ℚ)) ≠ 0 := by
    have := h.spb_two_le; positivity
  rw [sixDurMs, mul_div_cancel₀ _ hsp]

/-! ## Small arithmetic lemmas -/

lemma jround_intCast (n : ℤ) : jround (n : ℚ) = n := by
  unfold jround
  rw [add_comm, Int.floor_add_int]
  norm_num

lemma jround_natCast (n : ℕ) : jround (n : ℚ) = n := by
  exact_mod_cast jround_intCast (n : ℤ)

lemma sum_map_const_add (L : ℚ) (es : List ℚ) :
    (es.map (fun e => L + e)).sum = (es.length : ℚ) * L + es.sum := by
  induction es with
  | nil => simp
  | cons e t ih => simp [ih]; ring

/-! ## Claim C7: note-on/off classification -/

/-- C7. A raw event with status byte `s < 0xF0` and velocity `v` is
classified note-on iff `(s & 0xF0) = 0x90` and `v > 0`, note-off iff
`(s & 0xF0) = 0x80` or (`(s & 0xF0) = 0x90` and `v = 0`); only the
message-type nibble `s & 0xF0` matters, so the channel bits never change the
classification. -/
theorem noteOnOff_classification (s v : ℕ) (hs : s < 0xF0) :
    (isNoteOn s v = true ↔ (s &&& 0xF0 = 0x90 ∧ 0 < v)) ∧
    (isNoteOff s v = true ↔
      (s &&& 0xF0 = 0x80 ∨ (s &&& 0xF0 = 0x90 ∧ v = 0))) ∧
    (∀ s2 : ℕ, s2 &&& 0xF0 = s &&& 0xF0 →
      isNoteOn s2 v = isNoteOn s v ∧ isNoteOff s2 v = isNoteOff s v) := by
  refine ⟨?_, ?_, ?_⟩
  · simp [isNoteOn, command]
  · simp [isNoteOff, command]
  · intro s2 h2
    constructor <;> simp [isNoteOn, isNoteOff, command, h2]

/-- Witness for C7 at status byte 0x91 (note-on, channel 1), velocity 64. -/
theorem noteOnOff_classification_witness :
    isNoteOn 0x91 64 = true ↔ (0x91 &&& 0xF0 = 0x90 ∧ 0 < 64) :=
  (noteOnOff_classification 0x91 64 (by norm_num)).1

/-! ## Claim C8: recorded notes have in-range measures -/

/-- C8. Every `RecordedNote` the Duration Resolver (note-off handler or the
force flush in `stop`) emits has `measure ∈ [0, measureCount)`; an active
entry whose measure lies outside that range is dropped and produces no
`RecordedNote`. -/
theorem recordedNote_measure_in_range (cfg : Config) (midi : ℤ)
    (e : ActiveEntry) (endTime : ℚ) :
    (∀ note, resolveEntry cfg midi e endTime = some note →
      0 ≤ note.measure ∧ note.measure < (cfg.measures : ℤ)) ∧
    (¬(0 ≤ e.mIdx ∧ e.mIdx < (cfg.measures : ℤ)) →
      resolveEntry cfg midi e endTime = none) := by
  constructor
  · intro note h
    unfold resolveEntry at h
    split at h
    · rename_i hin
      cases h
      exact hin
    · exact absurd h (by simp)
  · intro hout
    unfold resolveEntry
    rw [if_neg hout]

/-- Witness for C8: an entry at measure 0 of a 4-measure session resolves to
a note whose measure is in range. -/
theorem recordedNote_measure_in_range_witness :
    0 ≤ (({ midi := 60, diffMs := 0, measure := 0, beatIndex := 0,
            sixteenthIndex := 0, durationSixteenths := 4 } :
            RecordedNote)).measure ∧
    (({ midi := 60, diffMs := 0, measure := 0, beatIndex := 0,
        sixteenthIndex := 0, durationSixteenths := 4 } :
        RecordedNote)).measure < ((4 : ℕ) : ℤ) :=
  (recordedNote_measure_in_range ⟨120, 4, 4, 4⟩ 60 ⟨1000, 0, 0, 0, 0⟩ 1500).1
    { midi := 60, diffMs := 0, measure := 0, beatIndex := 0,
      sixteenthIndex := 0, durationSixteenths := 4 }
    (by
      unfold resolveEntry sixDurMs beatDurMs spbN
      norm_num
      rw [show jround (4 : ℚ) = 4 by
        unfold jround; rw [Int.floor_eq_iff] <;> norm_num]
      norm_num)

/-! ## Claim C9: duration formula and floor -/

/-- C9. Every emitted `RecordedNote` (note-off or force flush) has
`durationSixteenths = max 1 (round((endTime - startTime) / sixteenthDurMs))`,
hence never less than 1, even for a zero-length or negative-length hold. -/
theorem duration_floor (cfg : Config) (midi : ℤ) (e : ActiveEntry)
    (endTime : ℚ) (note : RecordedNote)
    (h : resolveEntry cfg midi e endTime = some note) :
    note.durationSixteenths
        = max 1 (jround ((endTime - e.startTime) / sixDurMs cfg)) ∧
    1 ≤ note.durationSixteenths := by
  unfold resolveEntry at h
  split at h
  · cases h
    exact ⟨rfl, le_max_left _ _⟩
  · exact absurd h (by simp)

/-- Witness for C9: a note held for zero milliseconds still gets duration 1. -/
theorem duration_floor_witness :
    (({ midi := 62, diffMs := 0, measure := 1, beatIndex := 0,
        sixteenthIndex := 0, durationSixteenths := 1 } :
        RecordedNote)).durationSixteenths
      = max 1 (jround (((2000 : ℚ) - 2000) / sixDurMs ⟨120, 4, 4, 4⟩)) ∧
    1 ≤ (({ midi := 62, diffMs := 0, measure := 1, beatIndex := 0,
            sixteenthIndex := 0, durationSixteenths := 1 } :
            RecordedNote)).durationSixteenths :=
  duration_floor ⟨120, 4, 4, 4⟩ 62 ⟨2000, 1, 0, 0, 0⟩ 2000
    { midi := 62, diffMs := 0, measure := 1, beatIndex := 0,
      sixteenthIndex := 0, durationSixteenths := 1 }
    (by
      unfold resolveEntry sixDurMs beatDurMs spbN
      norm_num
      rw [show jround (0 : ℚ) = 0 by
        unfold jround; rw [Int.floor_eq_iff] <;> norm_num]
      norm_num)

/-! ## Claim C4: calibration takes the rounded mean deviation -/

/-- C4. If a calibration run captured at least one note (force-flushed notes
included), `stop` sets the new latency constant to the rounded mean of all
captured `diffMs`; in particular, when the deviations are `L + e_i` with the
`e_i` summing to zero, the new constant is exactly `L`. -/
theorem calibration_mean (cfg : Config) (active : List (ℤ × ActiveEntry))
    (now : ℚ) (lat : ℤ) (ns : List RecordedNote) (allNotes : List RecordedNote)
    (hall : allNotes = ns ++ active.filterMap
      (fun p => resolveEntry cfg p.1 p.2 (now - (lat : ℚ))))
    (hne : allNotes ≠ []) :
    (stopModel cfg active now lat true ns).1
        = jround ((allNotes.map (fun n => n.diffMs)).sum
            / (allNotes.length : ℚ)) ∧
    ∀ (L : ℤ) (es : List ℚ),
      allNotes.map (fun n => n.diffMs) = es.map (fun e => (L : ℚ) + e) →
      es.sum = 0 →
      (stopModel cfg active now lat true ns).1 = L := by
  have hlen : 0 < allNotes.length := List.length_pos.mpr hne
  have hfst : (stopModel cfg active now lat true ns).1
      = jround ((allNotes.map (fun n => n.diffMs)).sum
          / (allNotes.length : ℚ)) := by
    simp only [stopModel]
    rw [← hall, if_pos hlen]
    simp
  refine ⟨hfst, ?_⟩
  intro L es hdev hsum
  rw [hfst]
  have hlen2 : allNotes.length = es.length := by
    have := congrArg List.length hdev
    simpa using this
  rw [hdev, sum_map_const_add, hsum, add_zero, hlen2]
  have hesQ : ((es.length : ℚ)) ≠ 0 := by
    rw [hlen2] at hlen
    exact_mod_cast hlen.ne'
  rw [mul_comm, mul_div_assoc, div_self hesQ, mul_one, jround_intCast]

/-- Witness for C4, showing genuine `Math.round` behavior: two deviations
`1` and `2` have the non-integer mean `3/2`, which rounds (half up) to `2`,
not the `1` a floor would give; and four deviations `60 ± 10` average to
exactly `60`. -/
theorem calibration_mean_witness :
    (stopModel ⟨100, 4, 4, 4⟩ [] 0 0 true
      [ { midi := 60, diffMs := 1, measure := 0, beatIndex := 0,
          sixteenthIndex := 0, durationSixteenths := 1 },
        { midi := 60, diffMs := 2, measure := 0, beatIndex := 1,
          sixteenthIndex := 0, durationSixteenths := 1 } ]).1 = 2 ∧
    (stopModel ⟨100, 4, 4, 4⟩ [] 0 0 true
      [ { midi := 60, diffMs := 70, measure := 0, beatIndex := 0,
          sixteenthIndex := 0, durationSixteenths := 1 },
        { midi := 60, diffMs := 50, measure := 0, beatIndex := 1,
          sixteenthIndex := 0, durationSixteenths := 1 },
        { midi := 60, diffMs := 70, measure := 0, beatIndex := 2,
          sixteenthIndex := 0, durationSixteenths := 1 },
        { midi := 60, diffMs := 50, measure := 0, beatIndex := 3,
          sixteenthIndex := 0, durationSixteenths := 1 } ]).1 = 60 := by
  constructor
  · have h := (calibration_mean ⟨100, 4, 4, 4⟩ [] 0 0
      [ { midi := 60, diffMs := 1, measure := 0, beatIndex := 0,
          sixteenthIndex := 0, durationSixteenths := 1 },
        { midi := 60, diffMs := 2, measure := 0, beatIndex := 1,
          sixteenthIndex := 0, durationSixteenths := 1 } ]
      [ { midi := 60, diffMs := 1, measure := 0, beatIndex := 0,
          sixteenthIndex := 0, durationSixteenths := 1 },
        { midi := 60, diffMs := 2, measure := 0, beatIndex := 1,
          sixteenthIndex := 0, durationSixteenths := 1 } ]
      (by simp) (by simp)).1
    rw [h]
    rw [show (((
      [ { midi := 60, diffMs := 1, measure := 0, beatIndex := 0,
          sixteenthIndex := 0, durationSixteenths := 1 },
        { midi := 60, diffMs := 2, measure := 0, beatIndex := 1,
          sixteenthIndex := 0, durationSixteenths := 1 } ] :
        List RecordedNote).map (fun n => n.diffMs)).sum
        / (([ { midi := 60, diffMs := 1, measure := 0, beatIndex := 0,
                sixteenthIndex := 0, durationSixteenths := 1 },
              { midi := 60, diffMs := 2, measure := 0, beatIndex := 1,
                sixteenthIndex := 0, durationSixteenths := 1 } ] :
              List RecordedNote).length : ℚ)) = 3 / 2 by norm_num]
    unfold jround
    rw [Int.floor_eq_iff] <;> norm_num
  · exact (calibration_mean ⟨100, 4, 4, 4⟩ [] 0 0
      [ { midi := 60, diffMs := 70, measure := 0, beatIndex := 0,
          sixteenthIndex := 0, durationSixteenths := 1 },
        { midi := 60, diffMs := 50, measure := 0, beatIndex := 1,
          sixteenthIndex := 0, durationSixteenths := 1 },
        { midi := 60, diffMs := 70, measure := 0, beatIndex := 2,
          sixteenthIndex := 0, durationSixteenths := 1 },
        { midi := 60, diffMs := 50, measure := 0, beatIndex := 3,
          sixteenthIndex := 0, durationSixteenths := 1 } ]
      _ rfl (by simp)).2 60 [10, -10, 10, -10]
      (by norm_num) (by norm_num)

/-! ## Claim C5: failed calibration does NOT restore the prior constant

The claim says a calibration run that captures zero notes leaves the
pre-calibration constant in effect. The code contradicts this:
`testLatency` runs `setLatencyMs(0)` (line 1346) and never saves the prior
value, and the failure branch of `stop` (line 1250) only writes a debug
message, so after a failed run the constant is 0, not its pre-calibration
value. -/

/-- C5 counterexample: with pre-calibration constant 60 and a run that
captures zero notes, calibration is reported failed, yet the constant after
the run is 0, not the prior 60. -/
theorem calibration_failed_counterexample :
    (calibrationFlow 60 ⟨100, 4, 4, 4⟩ [] 0 []).2 = true ∧
    (calibrationFlow 60 ⟨100, 4, 4, 4⟩ [] 0 []).1 = 0 ∧
    (0 : ℤ) ≠ 60 := by
  refine ⟨rfl, rfl, by norm_num⟩

/-- C5 amended: a calibration run that captures zero notes is reported as
failed, and `stop` leaves the constant at the value it had during the run —
which is the 0 installed by `testLatency` at calibration start, not the
pre-calibration value (the prior constant is discarded and never restored). -/
theorem calibration_failed_keeps_run_constant (prior : ℤ) (cfg : Config)
    (active : List (ℤ × ActiveEntry)) (now : ℚ) (ns : List RecordedNote)
    (hflush : active.filterMap
      (fun p => resolveEntry cfg p.1 p.2 (now - ((0 : ℤ) : ℚ))) = [])
    (hns : ns = []) :
    (calibrationFlow prior cfg active now ns).2 = true ∧
    (calibrationFlow prior cfg active now ns).1 = 0 := by
  unfold calibrationFlow stopModel
  rw [hns, hflush]
  simp

/-- Witness for the amended C5. -/
theorem calibration_failed_keeps_run_constant_witness :
    (calibrationFlow 60 ⟨100, 4, 4, 4⟩ [] 0 []).2 = true ∧
    (calibrationFlow 60 ⟨100, 4, 4, 4⟩ [] 0 []).1 = 0 :=
  calibration_failed_keeps_run_constant 60 ⟨100, 4, 4, 4⟩ [] 0 [] rfl rfl

/-! ## Claim C6: events before the first usable beat

The claim says that an event whose normalized (post-borrow) beat index is
negative is discarded by quantization with no entry created in the
sounding-notes table. The code checks `bestBeatIdx >= 0` (line 1394) BEFORE
the borrow/carry normalization, so an event slightly before post-intro beat 0
passes the check, is normalized to a negative beat index, and IS stored into
`activeNotes` (line 1413) with a negative measure index; it only fails to
become a `RecordedNote` later, at the measure-range check of the note-off
handler or flush. -/

/-- C6 counterexample: config 1/8 time at 60 BPM, one measure; the timeline
is `[0, 1000]` (intro beat at 0, post-intro beat 0 at 1000, subdivision
duration 500 ms). An event at 625 ms — three quarters of a subdivision before
post-intro beat 0 — normalizes to beat index −1 (negative), yet quantization
stores an active entry (measure −1, subdivision 1) instead of discarding. -/
theorem preroll_event_creates_entry_counterexample :
    quantizeNoteOn ⟨60, 1, 8, 1⟩ [0, 1000] 625
      = some ⟨625, -1, 0, 1, 125⟩ ∧ (-1 : ℤ) < 0 := by
  constructor
  · have hfb : findBest 1 [0, 1000] 625 = (0, some 375) := by
      simp [findBest, findBestAux, bestStep]
      norm_num
    have hspb : spbN ⟨60, 1, 8, 1⟩ = 2 := rfl
    have hsix : sixDurMs ⟨60, 1, 8, 1⟩ = 500 := by
      unfold sixDurMs beatDurMs spbN
      norm_num
    have hjr : jround (-(3/4) : ℚ) = -1 := by
      unfold jround
      rw [Int.floor_eq_iff]
      norm_num
    have hnorm : normalize 2 (-1) 0 = (1, -1) := by decide
    simp only [quantizeNoteOn, hfb, hsix, hspb]
    norm_num [List.getD, hjr, hnorm]
  · norm_num

/-- C6 amended: an event whose normalized beat index is negative does create
a sounding-notes entry — quantization only discards when no eligible beat
exists at all (`bestBeatIdx < 0`) — but the created entry has a negative
measure index, so the Duration Resolver's measure-range check drops it at
note-off or flush time and it never becomes a `RecordedNote`. -/
theorem preroll_entry_never_recorded (cfg : Config) (bts : List ℚ) (T : ℚ)
    (e : ActiveEntry) (hq : quantizeNoteOn cfg bts T = some e)
    (hneg : e.mIdx < 0) (midi : ℤ) (endTime : ℚ) :
    resolveEntry cfg midi e endTime = none := by
  unfold resolveEntry
  rw [if_neg]
  omega

/-- Witness for the amended C6, at the counterexample's entry. -/
theorem preroll_entry_never_recorded_witness :
    resolveEntry ⟨60, 1, 8, 1⟩ 60
      (⟨625, -1, 0, 1, 125⟩ : ActiveEntry) 9999 = none :=
  preroll_entry_never_recorded ⟨60, 1, 8, 1⟩ [0, 1000] 625
    ⟨625, -1, 0, 1, 125⟩
    (by
      have hfb : findBest 1 [0, 1000] 625 = (0, some 375) := by
        simp [findBest, findBestAux, bestStep]
        norm_num
      have hspb : spbN ⟨60, 1, 8, 1⟩ = 2 := rfl
      have hsix : sixDurMs ⟨60, 1, 8, 1⟩ = 500 := by
        unfold sixDurMs beatDurMs spbN
        norm_num
      have hjr : jround (-(3/4) : ℚ) = -1 := by
        unfold jround
        rw [Int.floor_eq_iff]
        norm_num
      have hnorm : normalize 2 (-1) 0 = (1, -1) := by decide
      simp only [quantizeNoteOn, hfb, hsix, hspb]
      norm_num [List.getD, hjr, hnorm])
    (by norm_num) 60 9999

/-! ## Lemmas about the score assembler -/

lemma snapDur_pos (x : ℤ) : 1 ≤ snapDur x := by
  unfold snapDur
  split_ifs <;> omega

lemma snapDur_le {x : ℤ} (h : 1 ≤ x) : snapDur x ≤ x := by
  unfold snapDur
  split_ifs <;> omega

lemma le_foldr_max (l : List ℤ) (x : ℤ) (hx : x ∈ l) : x ≤ l.foldr max 0 := by
  induction l with
  | nil => cases hx
  | cons a t ih =>
    rcases List.mem_cons.mp hx with h | h
    · subst h; exact le_max_left _ _
    · exact le_trans (ih h) (le_max_right _ _)

/-- In the note branch, the snapped duration is at least 1 and fits in the
rest of the measure. -/
lemma noteDur_bounds {mS : ℤ} (spb : ℤ) {sorted : List RecordedNote}
    (hmS : 0 < mS) (hdur : ∀ n ∈ sorted, 1 ≤ n.durationSixteenths) (cur : ℤ)
    (hlen : 0 < (sorted.filter (fun n => notePos mS spb n == cur)).length) :
    1 ≤ noteDur mS spb sorted cur ∧
    noteDur mS spb sorted cur ≤ mS - cur % mS := by
  obtain ⟨n, hn⟩ := List.exists_mem_of_ne_nil _ (List.length_pos.mp hlen)
  have hmem : n ∈ sorted := (List.mem_filter.mp hn).1
  have h1 : 1 ≤ n.durationSixteenths := hdur n hmem
  have h2 : n.durationSixteenths
      ≤ ((sorted.filter (fun n => notePos mS spb n == cur)).map
          (fun n => n.durationSixteenths)).foldr max 0 :=
    le_foldr_max _ _ (List.mem_map_of_mem _ hn)
  have hrem : 0 < mS - cur % mS := by
    have := Int.emod_lt_of_pos cur hmS
    omega
  have hx : 1 ≤ min (((sorted.filter (fun n => notePos mS spb n == cur)).map
      (fun n => n.durationSixteenths)).foldr max 0) (mS - cur % mS) := by
    omega
  refine ⟨snapDur_pos _, ?_⟩
  calc noteDur mS spb sorted cur ≤ _ := snapDur_le hx
  _ ≤ mS - cur % mS := min_le_right _ _

/-- In the rest branch, the snapped duration is at least 1 and fits in the
rest of the measure. -/
lemma restDur_bounds {mS total : ℤ} (spb : ℤ) (sorted : List RecordedNote)
    (hmS : 0 < mS) {cur : ℤ} (hcur : cur < total) :
    1 ≤ restDur mS spb total sorted cur ∧
    restDur mS spb total sorted cur ≤ mS - cur % mS := by
  have hrem : 0 < mS - cur % mS := by
    have := Int.emod_lt_of_pos cur hmS
    omega
  have hgap : 1 ≤ (match sorted.find? (fun n => decide (cur < notePos mS spb n)) with
      | some n => notePos mS spb n - cur
      | none => total - cur) := by
    rcases hf : sorted.find? (fun n => decide (cur < notePos mS spb n)) with _ | n
    · simp only [hf]
      show 1 ≤ total - cur
      omega
    · have := List.find?_some hf
      simp only [decide_eq_true_eq] at this
      simp only [hf]
      show 1 ≤ notePos mS spb n - cur
      omega
  have hx : 1 ≤ min (match sorted.find? (fun n => decide (cur < notePos mS spb n)) with
      | some n => notePos mS spb n - cur
      | none => total - cur) (mS - cur % mS) := le_min hgap (by omega)
  refine ⟨snapDur_pos _, ?_⟩
  calc restDur mS spb total sorted cur ≤ _ := snapDur_le hx
  _ ≤ mS - cur % mS := min_le_right _ _

/-- Every token of the scan starts at or after the cursor, and its grouped
notes sit exactly at its start position. -/
lemma buildTexAux_mem (mS spb total : ℤ) (sorted : List RecordedNote) :
    ∀ (fuel : ℕ) (cur : ℤ), ∀ t ∈ buildTexAux mS spb total sorted fuel cur,
      cur ≤ t.pos ∧ ∀ n ∈ t.hits, notePos mS spb n = t.pos := by
  intro fuel
  induction fuel with
  | zero => intro cur t ht; simp [buildTexAux] at ht
  | succ f ih =>
    intro cur t ht
    by_cases hcur : cur < total
    · rw [buildTexAux, if_pos hcur] at ht
      by_cases hlen :
          0 < (sorted.filter (fun n => notePos mS spb n == cur)).length
      · rw [if_pos hlen] at ht
        rcases List.mem_cons.mp ht with h | h
        · subst h
          refine ⟨le_refl _, ?_⟩
          intro n hn
          have := (List.mem_filter.mp hn).2
          simpa using this
        · have h1 := snapDur_pos (min (((sorted.filter
              (fun n => notePos mS spb n == cur)).map
              (fun n => n.durationSixteenths)).foldr max 0) (mS - cur % mS))
          have := ih _ t h
          constructor
          · have hd : 1 ≤ noteDur mS spb sorted cur := snapDur_pos _
            omega
          · exact this.2
      · rw [if_neg hlen] at ht
        rcases List.mem_cons.mp ht with h | h
        · subst h
          exact ⟨le_refl _, by intro n hn; cases hn⟩
        · have := ih _ t h
          constructor
          · have hd : 1 ≤ restDur mS spb total sorted cur := snapDur_pos _
            omega
          · exact this.2
    · rw [buildTexAux, if_neg hcur] at ht
      cases ht

/-- The scan's tokens are spans `[pos, pos + dur)` laid end to end: no
token's start lies strictly inside another token's span. -/
lemma buildTexAux_disjoint (mS spb total : ℤ) (sorted : List RecordedNote) :
    ∀ (fuel : ℕ) (cur : ℤ), ∀ t ∈ buildTexAux mS spb total sorted fuel cur,
      ∀ t2 ∈ buildTexAux mS spb total sorted fuel cur,
        ¬(t.pos < t2.pos ∧ t2.pos < t.pos + t.dur) := by
  intro fuel
  induction fuel with
  | zero => intro cur t ht; simp [buildTexAux] at ht
  | succ f ih =>
    intro cur t ht t2 ht2
    by_cases hcur : cur < total
    · rw [buildTexAux, if_pos hcur] at ht ht2
      by_cases hlen :
          0 < (sorted.filter (fun n => notePos mS spb n == cur)).length
      · rw [if_pos hlen] at ht ht2
        have hd : 1 ≤ noteDur mS spb sorted cur := snapDur_pos _
        rcases List.mem_cons.mp ht with h | h <;>
          rcases List.mem_cons.mp ht2 with h2 | h2
        · subst h; subst h2; omega
        · subst h
          have := (buildTexAux_mem mS spb total sorted f _ t2 h2).1
          simp only
          omega
        · subst h2
          have := (buildTexAux_mem mS spb total sorted f _ t h).1
          simp only
          omega
        · exact ih _ t h t2 h2
      · rw [if_neg hlen] at ht ht2
        have hd : 1 ≤ restDur mS spb total sorted cur := snapDur_pos _
        rcases List.mem_cons.mp ht with h | h <;>
          rcases List.mem_cons.mp ht2 with h2 | h2
        · subst h; subst h2; omega
        · subst h
          have := (buildTexAux_mem mS spb total sorted f _ t2 h2).1
          simp only
          omega
        · subst h2
          have := (buildTexAux_mem mS spb total sorted f _ t h).1
          simp only
          omega
        · exact ih _ t h t2 h2
    · rw [buildTexAux, if_neg hcur] at ht
      cases ht

/-- Each token's duration is at least 1, and its span stays inside the
measure containing its start. -/
lemma buildTexAux_span (mS spb total : ℤ) (sorted : List RecordedNote)
    (hmS : 0 < mS) (hdur : ∀ n ∈ sorted, 1 ≤ n.durationSixteenths) :
    ∀ (fuel : ℕ) (cur : ℤ), ∀ t ∈ buildTexAux mS spb total sorted fuel cur,
      1 ≤ t.dur ∧ t.pos % mS + t.dur ≤ mS := by
  intro fuel
  induction fuel with
  | zero => intro cur t ht; simp [buildTexAux] at ht
  | succ f ih =>
    intro cur t ht
    by_cases hcur : cur < total
    · rw [buildTexAux, if_pos hcur] at ht
      by_cases hlen :
          0 < (sorted.filter (fun n => notePos mS spb n == cur)).length
      · rw [if_pos hlen] at ht
        rcases List.mem_cons.mp ht with h | h
        · subst h
          have := noteDur_bounds spb hmS hdur cur hlen
          simp only
          omega
        · exact ih _ t h
      · rw [if_neg hlen] at ht
        rcases List.mem_cons.mp ht with h | h
        · subst h
          have := restDur_bounds spb sorted hmS hcur
          simp only
          omega
        · exact ih _ t h
    · rw [buildTexAux, if_neg hcur] at ht
      cases ht

lemma measureSum_nil (mS m : ℤ) : measureSum mS m [] = 0 := rfl

lemma measureSum_cons (mS m : ℤ) (t : Token) (ts : List Token) :
    measureSum mS m (t :: ts)
      = (if t.pos / mS = m then t.dur else 0) + measureSum mS m ts := by
  unfold measureSum
  rw [List.filter_cons]
  by_cases h : t.pos / mS = m
  · simp [h]
  · simp [h]

lemma measureSum_cons_mk (mS m : ℤ) (r : Bool) (p d : ℤ)
    (hs : List RecordedNote) (ts : List Token) :
    measureSum mS m (⟨r, p, d, hs⟩ :: ts)
      = (if p / mS = m then d else 0) + measureSum mS m ts :=
  measureSum_cons mS m ⟨r, p, d, hs⟩ ts

/-- Characterization of `Int.ediv` by the enclosing multiples. -/
lemma ediv_eq_iff_between {a q d : ℤ} (hd : 0 < d) :
    a / d = q ↔ q * d ≤ a ∧ a < (q + 1) * d := by
  constructor
  · intro h
    constructor
    · rw [← h]
      have := Int.ediv_add_emod a d
      have h2 := Int.emod_nonneg a hd.ne'
      nlinarith [Int.ediv_add_emod a d]
    · have := Int.lt_ediv_add_one_mul_self a hd
      rw [h] at this
      exact this
  · rintro ⟨h1, h2⟩
    have hle : q ≤ a / d := (Int.le_ediv_iff_mul_le hd).mpr h1
    have hlt : a / d < q + 1 := (Int.ediv_lt_iff_lt_mul hd).mpr h2
    omega

/-- The measure-sum invariant of the scan: starting the scan at cursor `cur`,
the duration attributed to the measure `[A, B)` (where `A = m * mS` and
`B = A + mS ≤ total`) is exactly the part of `[A, B)` at or after `cur`. -/
lemma buildTexAux_measureSum (mS spb total : ℤ) (sorted : List RecordedNote)
    (hmS : 0 < mS) (hdur : ∀ n ∈ sorted, 1 ≤ n.durationSixteenths)
    (m A B : ℤ) (hA : A = m * mS) (hB : B = A + mS) (hBt : B ≤ total) :
    ∀ (fuel : ℕ) (cur : ℤ), 0 ≤ cur → total ≤ cur + fuel →
      measureSum mS m (buildTexAux mS spb total sorted fuel cur)
        = max 0 (B - max cur A) := by
  intro fuel
  induction fuel with
  | zero =>
    intro cur h0 htot
    rw [buildTexAux, measureSum_nil]
    omega
  | succ f ih =>
    intro cur h0 htot
    by_cases hcur : cur < total
    case neg =>
      rw [buildTexAux, if_neg hcur, measureSum_nil]
      omega
    case pos =>
      have hrfact := Int.ediv_add_emod cur mS
      have hr0 : 0 ≤ cur % mS := Int.emod_nonneg cur hmS.ne'
      have hrlt : cur % mS < mS := Int.emod_lt_of_pos cur hmS
      rw [buildTexAux, if_pos hcur]
      by_cases hlen :
          0 < (sorted.filter (fun n => notePos mS spb n == cur)).length
      case pos =>
        rw [if_pos hlen, measureSum_cons_mk]
        have hd := noteDur_bounds spb hmS hdur cur hlen
        have hih := ih (cur + noteDur mS spb sorted cur) (by omega) (by omega)
        rw [hih]
        by_cases hq : cur / mS = m
        · rw [if_pos hq]
          have hAcur : A ≤ cur := by rw [hA, ← hq]; nlinarith
          have hcurB : cur < B := by
            rw [hB, hA, ← hq]
            nlinarith
          have hstep : cur + noteDur mS spb sorted cur ≤ B := by
            rw [hB, hA, ← hq]
            nlinarith
          omega
        · rw [if_neg hq]
          have htri : cur < A ∨ B ≤ cur := by
            by_contra hcon
            push_neg at hcon
            exact hq ((ediv_eq_iff_between hmS).mpr
              ⟨by omega, by rw [show (m + 1) * mS = A + mS by rw [hA]; ring]; omega⟩)
          rcases htri with hlt | hge
          · have hqlt : cur / mS < m := by
              rw [hA] at hlt
              exact (Int.ediv_lt_iff_lt_mul hmS).mpr hlt
            have hbar : cur + noteDur mS spb sorted cur ≤ A := by
              have h1 : cur + noteDur mS spb sorted cur
                  ≤ mS * (cur / mS) + mS := by omega
              have h2 : mS * (cur / mS) + mS ≤ A := by
                rw [hA]
                nlinarith
              omega
            omega
          · omega
      case neg =>
        rw [if_neg hlen, measureSum_cons_mk]
        have hd := restDur_bounds spb sorted hmS hcur
        have hih := ih (cur + restDur mS spb total sorted cur)
          (by omega) (by omega)
        rw [hih]
        by_cases hq : cur / mS = m
        · rw [if_pos hq]
          have hAcur : A ≤ cur := by rw [hA, ← hq]; nlinarith
          have hcurB : cur < B := by
            rw [hB, hA, ← hq]
            nlinarith
          have hstep : cur + restDur mS spb total sorted cur ≤ B := by
            rw [hB, hA, ← hq]
            nlinarith
          omega
        · rw [if_neg hq]
          have htri : cur < A ∨ B ≤ cur := by
            by_contra hcon
            push_neg at hcon
            exact hq ((ediv_eq_iff_between hmS).mpr
              ⟨by omega, by rw [show (m + 1) * mS = A + mS by rw [hA]; ring]; omega⟩)
          rcases htri with hlt | hge
          · have hqlt : cur / mS < m := by
              rw [hA] at hlt
              exact (Int.ediv_lt_iff_lt_mul hmS).mpr hlt
            have hbar : cur + restDur mS spb total sorted cur ≤ A := by
              have h1 : cur + restDur mS spb total sorted cur
                  ≤ mS * (cur / mS) + mS := by omega
              have h2 : mS * (cur / mS) + mS ≤ A := by
                rw [hA]
                nlinarith
              omega
            omega
          · omega

/-! ## Claim C1: bar closure -/

/-- C1. For recorded notes with in-range fields and a valid config, the token
durations of the assembler's output sum to `measureSixteenths` in every
measure `0 ≤ m < measures`, and no token's span crosses a bar line. -/
theorem bar_closure (cfg : Config) (hv : ValidConfig cfg)
    (notes : List RecordedNote)
    (hnotes : ∀ n ∈ notes, 0 ≤ n.measure ∧ n.measure < (cfg.measures : ℤ) ∧
      0 ≤ n.beatIndex ∧ n.beatIndex < (cfg.beats : ℤ) ∧
      0 ≤ n.sixteenthIndex ∧ n.sixteenthIndex < (spbN cfg : ℤ) ∧
      1 ≤ n.durationSixteenths) :
    (∀ m : ℤ, 0 ≤ m → m < (cfg.measures : ℤ) →
      measureSum (cfgMS cfg) m (buildTexTokens cfg notes) = cfgMS cfg) ∧
    (∀ t ∈ buildTexTokens cfg notes,
      t.pos % cfgMS cfg + t.dur ≤ cfgMS cfg) := by
  have hb1 : (1 : ℤ) ≤ (cfg.beats : ℤ) := by exact_mod_cast hv.beats_pos
  have hsp2 : (2 : ℤ) ≤ (spbN cfg : ℤ) := by exact_mod_cast hv.spb_two_le
  have hmS : 0 < cfgMS cfg := by
    unfold cfgMS
    nlinarith
  have hdur : ∀ n ∈ notes.insertionSort
      (fun a b => notePos (cfgMS cfg) ((spbN cfg : ℤ)) a
        ≤ notePos (cfgMS cfg) ((spbN cfg : ℤ)) b),
      1 ≤ n.durationSixteenths := by
    intro n hn
    have hmem : n ∈ notes := (List.perm_insertionSort _ notes).mem_iff.mp hn
    exact (hnotes n hmem).2.2.2.2.2.2
  have htotal0 : 0 ≤ cfgTotal cfg := by
    unfold cfgTotal
    have hm0 : (0 : ℤ) ≤ (cfg.measures : ℤ) := by positivity
    nlinarith
  have hfuel : cfgTotal cfg ≤ 0 + ((cfgTotal cfg).toNat : ℤ) := by
    rw [Int.toNat_of_nonneg htotal0]
    omega
  constructor
  · intro m hm0 hm
    have hBt : m * cfgMS cfg + cfgMS cfg ≤ cfgTotal cfg := by
      unfold cfgTotal
      have : m + 1 ≤ (cfg.measures : ℤ) := by omega
      nlinarith
    have := buildTexAux_measureSum (cfgMS cfg) ((spbN cfg : ℤ)) (cfgTotal cfg)
      (notes.insertionSort
        (fun a b => notePos (cfgMS cfg) ((spbN cfg : ℤ)) a
          ≤ notePos (cfgMS cfg) ((spbN cfg : ℤ)) b))
      hmS hdur m (m * cfgMS cfg) (m * cfgMS cfg + cfgMS cfg) rfl rfl hBt
      (cfgTotal cfg).toNat 0 le_rfl hfuel
    have hA0 : 0 ≤ m * cfgMS cfg := by nlinarith
    simp only [buildTexTokens]
    rw [this]
    omega
  · intro t ht
    simp only [buildTexTokens] at ht
    exact (buildTexAux_span (cfgMS cfg) ((spbN cfg : ℤ)) (cfgTotal cfg) _
      hmS hdur (cfgTotal cfg).toNat 0 t ht).2

/-- Witness for C1: the empty note set over one 4/4 measure fills measure 0
with rests summing to 16 sixteenths. -/
theorem bar_closure_witness :
    measureSum (cfgMS ⟨100, 4, 4, 1⟩) 0 (buildTexTokens ⟨100, 4, 4, 1⟩ [])
      = cfgMS ⟨100, 4, 4, 1⟩ :=
  (bar_closure ⟨100, 4, 4, 1⟩ (by decide) [] (by simp)).1 0 le_rfl (by decide)

/-! ## Claim C10: notes starting strictly inside an emitted token's span are
silently omitted -/

/-- C10. If a recorded note's start position lies strictly between some
emitted token's start and that start plus its snapped duration, the note is
omitted from the whole output: it is in no token's grouped-note list (and so
in no metadata entry). Only notes whose start the cursor lands on exactly
ever contribute. -/
theorem skipped_note_omitted (cfg : Config) (notes : List RecordedNote)
    (n : RecordedNote) (t : Token)
    (ht : t ∈ buildTexTokens cfg notes)
    (h1 : t.pos < notePos (cfgMS cfg) ((spbN cfg : ℤ)) n)
    (h2 : notePos (cfgMS cfg) ((spbN cfg : ℤ)) n < t.pos + t.dur) :
    ∀ t2 ∈ buildTexTokens cfg notes, n ∉ t2.hits := by
  intro t2 ht2 hmem
  simp only [buildTexTokens] at ht ht2
  have hpos := (buildTexAux_mem (cfgMS cfg) ((spbN cfg : ℤ)) (cfgTotal cfg) _
    (cfgTotal cfg).toNat 0 t2 ht2).2 n hmem
  have hdisj := buildTexAux_disjoint (cfgMS cfg) ((spbN cfg : ℤ)) (cfgTotal cfg) _
    (cfgTotal cfg).toNat 0 t ht t2 ht2
  exact hdisj ⟨by omega, by omega⟩

/-- Witness for C10: in one 4/4 measure, a note at slot 0 with duration 4
produces a token spanning `[0, 4)`; a second note starting at slot 2 (inside
that span) appears in no token's group. -/
theorem skipped_note_omitted_witness :
    ({ midi := 62, diffMs := 0, measure := 0, beatIndex := 0,
       sixteenthIndex := 2, durationSixteenths := 1 } : RecordedNote) ∉
      (⟨false, 0, 4,
        [{ midi := 60, diffMs := 0, measure := 0, beatIndex := 0,
           sixteenthIndex := 0, durationSixteenths := 4 }]⟩ : Token).hits :=
  skipped_note_omitted ⟨100, 4, 4, 1⟩
    [ { midi := 60, diffMs := 0, measure := 0, beatIndex := 0,
        sixteenthIndex := 0, durationSixteenths := 4 },
      { midi := 62, diffMs := 0, measure := 0, beatIndex := 0,
        sixteenthIndex := 2, durationSixteenths := 1 } ]
    { midi := 62, diffMs := 0, measure := 0, beatIndex := 0,
      sixteenthIndex := 2, durationSixteenths := 1 }
    ⟨false, 0, 4,
      [{ midi := 60, diffMs := 0, measure := 0, beatIndex := 0,
         sixteenthIndex := 0, durationSixteenths := 4 }]⟩
    (by decide) (by decide) (by decide)
    ⟨false, 0, 4,
      [{ midi := 60, diffMs := 0, measure := 0, beatIndex := 0,
         sixteenthIndex := 0, durationSixteenths := 4 }]⟩
    (by decide)

/-! ## Lemmas about the nearest-beat scan -/

lemma bestStep_skip (beats : ℕ) (T : ℚ) (acc : ℤ × Option ℚ) (k : ℕ) (t : ℚ)
    (hk : k < beats) : bestStep beats T acc k t = acc := by
  unfold bestStep
  rw [if_pos hk]

lemma bestStep_none (beats : ℕ) (T : ℚ) (bi : ℤ) (k : ℕ) (t : ℚ)
    (hk : ¬k < beats) :
    bestStep beats T (bi, none) k t
      = ((k : ℤ) - (beats : ℤ), some |t - T|) := by
  unfold bestStep
  rw [if_neg hk]

lemma bestStep_some (beats : ℕ) (T : ℚ) (bi : ℤ) (mv : ℚ) (k : ℕ) (t : ℚ)
    (hk : ¬k < beats) :
    bestStep beats T (bi, some mv) k t
      = if |t - T| < mv then ((k : ℤ) - (beats : ℤ), some |t - T|)
        else (bi, some mv) := by
  unfold bestStep
  rw [if_neg hk]

lemma findBestAux_append (beats : ℕ) (T : ℚ) (L1 L2 : List ℚ) :
    ∀ (k : ℕ) (acc : ℤ × Option ℚ),
      findBestAux beats T (L1 ++ L2) k acc
        = findBestAux beats T L2 (k + L1.length)
            (findBestAux beats T L1 k acc) := by
  induction L1 with
  | nil => intro k acc; simp [findBestAux]
  | cons t rest ih =>
    intro k acc
    simp only [List.cons_append, findBestAux, List.length_cons]
    show findBestAux beats T (rest ++ L2) (k + 1) (bestStep beats T acc k t)
      = _
    rw [ih]
    have hidx : k + 1 + rest.length = k + (rest.length + 1) := by omega
    rw [hidx]

/-- While scanning elements whose distance all exceed `dmin`, the running
minimum (if any) stays above `dmin`. -/
lemma findBestAux_gt (beats : ℕ) (T dmin : ℚ) :
    ∀ (L : List ℚ) (k : ℕ) (acc : ℤ × Option ℚ),
      (acc.2 = none ∨ ∃ mv, acc.2 = some mv ∧ dmin < mv) →
      (∀ t ∈ L, dmin < |t - T|) →
      ((findBestAux beats T L k acc).2 = none ∨
        ∃ mv, (findBestAux beats T L k acc).2 = some mv ∧ dmin < mv) := by
  intro L
  induction L with
  | nil => intro k acc hacc _; exact hacc
  | cons t rest ih =>
    intro k acc hacc hL
    simp only [findBestAux]
    apply ih
    · obtain ⟨bi, mo⟩ := acc
      by_cases hk : k < beats
      · rw [bestStep_skip beats T _ k t hk]; exact hacc
      · have hd : dmin < |t - T| := hL t (List.mem_cons_self t rest)
        rcases mo with _ | mv
        · rw [bestStep_none beats T bi k t hk]
          exact Or.inr ⟨|t - T|, rfl, hd⟩
        · rw [bestStep_some beats T bi mv k t hk]
          rcases hacc with h | ⟨mv2, hmv2, hlt2⟩
          · exact absurd h (by simp)
          · simp only [Option.some.injEq] at hmv2
            subst hmv2
            by_cases hcmp : |t - T| < mv
            · rw [if_pos hcmp]
              exact Or.inr ⟨|t - T|, rfl, hd⟩
            · rw [if_neg hcmp]
              exact Or.inr ⟨mv, rfl, hlt2⟩
    · intro x hx; exact hL x (List.mem_cons_of_mem _ hx)

/-- Once the running minimum is at most every remaining distance, the scan
never updates again. -/
lemma findBestAux_keep (beats : ℕ) (T : ℚ) (bi : ℤ) (mv : ℚ) :
    ∀ (L : List ℚ) (k : ℕ),
      (∀ t ∈ L, mv ≤ |t - T|) →
      findBestAux beats T L k (bi, some mv) = (bi, some mv) := by
  intro L
  induction L with
  | nil => intro k _; rfl
  | cons t rest ih =>
    intro k hL
    simp only [findBestAux]
    have hstep : bestStep beats T (bi, some mv) k t = (bi, some mv) := by
      by_cases hk : k < beats
      · exact bestStep_skip beats T _ k t hk
      · rw [bestStep_some beats T bi mv k t hk]
        rw [if_neg (not_lt.mpr (hL t (List.mem_cons_self t rest)))]
    rw [hstep]
    exact ih (k + 1) (fun x hx => hL x (List.mem_cons_of_mem _ hx))

/-- Characterization of the nearest-beat scan over an `N`-element timeline
`f 0, …, f (N-1)`: if index `j0 ≥ beats` beats every earlier index strictly
and every later index weakly (the source keeps the first minimum, since it
updates only on strict improvement), the scan returns
`(j0 - beats, |f j0 - T|)`. -/
lemma findBest_spec (beats N j0 : ℕ) (f : ℕ → ℚ) (T : ℚ)
    (hbj : beats ≤ j0) (hjN : j0 < N)
    (hlt : ∀ i, i < j0 → |f j0 - T| < |f i - T|)
    (hle : ∀ i, j0 < i → i < N → |f j0 - T| ≤ |f i - T|) :
    findBest beats ((List.range N).map f) T
      = ((j0 : ℤ) - (beats : ℤ), some |f j0 - T|) := by
  have hsplit : List.range N
      = List.range' 0 j0 ++ (j0 :: List.range' (j0 + 1) (N - j0 - 1)) := by
    rw [List.range_eq_range']
    have h1 : List.range' 0 j0 ++ List.range' (0 + 1 * j0) (N - j0) 1
        = List.range' 0 ((N - j0) + j0) := List.range'_append 0 j0 (N - j0) 1
    simp only [one_mul, Nat.zero_add] at h1
    rw [show (N - j0) + j0 = N by omega] at h1
    rw [← h1]
    congr 1
    rw [show N - j0 = (N - j0 - 1) + 1 by omega, List.range'_succ]
    have hc : N - j0 - 1 + 1 - 1 = N - j0 - 1 := by omega
    rw [hc]
  rw [hsplit, List.map_append, List.map_cons]
  unfold findBest
  rw [findBestAux_append]
  simp only [List.length_map, List.length_range', Nat.zero_add]
  have hacc1 := findBestAux_gt beats T |f j0 - T|
    ((List.range' 0 j0).map f) 0 (-1, none) (Or.inl rfl)
    (by
      intro t htm
      obtain ⟨i, hi, hfi⟩ := List.mem_map.mp htm
      have hilt : i < j0 := by
        have := List.mem_range'_1.mp hi
        omega
      rw [← hfi]
      exact hlt i hilt)
  set acc1 := findBestAux beats T ((List.range' 0 j0).map f) 0 (-1, none)
    with hacc1def
  simp only [findBestAux]
  have hstep : bestStep beats T acc1 j0 (f j0)
      = ((j0 : ℤ) - (beats : ℤ), some |f j0 - T|) := by
    obtain ⟨bi, mo⟩ := acc1
    rcases mo with _ | mv
    · exact bestStep_none beats T bi j0 (f j0) (not_lt.mpr hbj)
    · rw [bestStep_some beats T bi mv j0 (f j0) (not_lt.mpr hbj)]
      rcases hacc1 with h | ⟨mv2, hmv2, hlt2⟩
      · exact absurd h (by simp)
      · simp only [Option.some.injEq] at hmv2
        subst hmv2
        rw [if_pos hlt2]
  rw [hstep]
  apply findBestAux_keep
  intro t htm
  obtain ⟨i, hi, hfi⟩ := List.mem_map.mp htm
  have hig : j0 < i ∧ i < N := by
    have := List.mem_range'_1.mp hi
    omega
  rw [← hfi]
  exact hle i hig.1 hig.2

/-! ## Lemmas about grid normalization and index splitting -/

lemma normalize_id {spb s b : ℤ} (h0 : 0 ≤ s) (h1 : s < spb) :
    normalize spb s b = (s, b) := by
  unfold normalize
  have h2 : normGE spb (s.natAbs + 1) s b = (s, b) := by
    simp only [normGE, if_neg (not_le.mpr h1)]
  rw [h2]
  simp only [normLT, if_neg (not_lt.mpr h0)]

/-- One borrow: a raw subdivision index in `[-spb, 0)` gains `spb` while the
beat index drops by one. -/
lemma normalize_borrow {spb s b : ℤ} (hspb : 0 < spb) (h0 : -spb ≤ s)
    (h1 : s < 0) : normalize spb s b = (s + spb, b - 1) := by
  unfold normalize
  have h2 : normGE spb (s.natAbs + 1) s b = (s, b) := by
    simp only [normGE, if_neg (not_le.mpr (h1.trans hspb))]
  rw [h2]
  show normLT spb (s.natAbs + 1) s b = (s + spb, b - 1)
  obtain ⟨k, hk⟩ : ∃ k, s.natAbs = k + 1 := ⟨s.natAbs - 1, by omega⟩
  rw [hk]
  have hneg : ¬(s + spb < 0) := by omega
  simp only [normLT, if_pos h1, if_neg hneg]

lemma fdiv_mul_add {m b n : ℤ} (hn : 0 < n) (hb0 : 0 ≤ b) (hbn : b < n) :
    (m * n + b).fdiv n = m := by
  rw [Int.fdiv_eq_ediv _ hn.le, add_comm, Int.add_mul_ediv_right b m hn.ne',
    Int.ediv_eq_zero_of_lt hb0 hbn]
  omega

lemma tmod_mul_add {m b n : ℤ} (hn : 0 < n) (hm : 0 ≤ m) (hb0 : 0 ≤ b)
    (hbn : b < n) : (m * n + b).tmod n = b := by
  have hnn : 0 ≤ m * n + b := by nlinarith
  rw [Int.tmod_eq_emod hnn hn.le, add_comm, Int.add_mul_emod_self,
    Int.emod_eq_of_lt hb0 hbn]

lemma idealTimeline_getD {t0 bd : ℚ} {N j : ℕ} (hj : j < N) :
    (idealTimeline t0 bd N).getD j 0 = t0 + (j : ℚ) * bd := by
  unfold idealTimeline
  rw [List.getD_eq_getElem?_getD, List.getElem?_map, List.getElem?_range hj]
  rfl

/-- Unfolding of the note-on quantizer once the nearest beat is known to be
timeline index `j0 ≥ beats`. -/
lemma quantizeNoteOn_unfold (cfg : Config) (bts : List ℚ) (T : ℚ) (j0 : ℕ)
    (hfb : (findBest cfg.beats bts T).1 = (j0 : ℤ) - (cfg.beats : ℤ))
    (hj : cfg.beats ≤ j0) :
    quantizeNoteOn cfg bts T = some
      { startTime := T
      , mIdx := (normalize (spbN cfg : ℤ)
          (jround ((T - bts.getD j0 0) / sixDurMs cfg))
          ((j0 : ℤ) - (cfg.beats : ℤ))).2.fdiv (cfg.beats : ℤ)
      , bIdx := (normalize (spbN cfg : ℤ)
          (jround ((T - bts.getD j0 0) / sixDurMs cfg))
          ((j0 : ℤ) - (cfg.beats : ℤ))).2.tmod (cfg.beats : ℤ)
      , sIdx := (normalize (spbN cfg : ℤ)
          (jround ((T - bts.getD j0 0) / sixDurMs cfg))
          ((j0 : ℤ) - (cfg.beats : ℤ))).1
      , diffMs := (T - bts.getD j0 0)
          - (jround ((T - bts.getD j0 0) / sixDurMs cfg) : ℚ) * sixDurMs cfg } := by
  have hge : (0 : ℤ) ≤ (j0 : ℤ) - (cfg.beats : ℤ) := by
    have : (cfg.beats : ℤ) ≤ (j0 : ℤ) := by exact_mod_cast hj
    omega
  have hidx : (((j0 : ℤ) - (cfg.beats : ℤ)) + (cfg.beats : ℤ)).toNat = j0 := by
    omega
  simp only [quantizeNoteOn, hfb, if_pos hge, hidx]

/-- Shared tail of the grid round-trip: when the nearest-beat search lands on
timeline index `K = beats + (m*beats + b)` itself, the quantizer stores
exactly `(m, b, s)` with zero deviation. -/
lemma quantize_core_at_K (cfg : Config) (hv : ValidConfig cfg) (t0 : ℚ)
    (m b s : ℕ) (hb : b < cfg.beats) (hs : s < spbN cfg) (T : ℚ)
    (hT : T = t0 + ((cfg.beats + (m * cfg.beats + b) : ℕ) : ℚ) * beatDurMs cfg
      + (s : ℚ) * sixDurMs cfg)
    (N : ℕ) (hKN : cfg.beats + (m * cfg.beats + b) < N)
    (hfb : (findBest cfg.beats (idealTimeline t0 (beatDurMs cfg) N) T).1
      = ((cfg.beats + (m * cfg.beats + b) : ℕ) : ℤ) - (cfg.beats : ℤ)) :
    quantizeNoteOn cfg (idealTimeline t0 (beatDurMs cfg) N) T
      = some { startTime := T, mIdx := (m : ℤ), bIdx := (b : ℤ),
               sIdx := (s : ℤ), diffMs := 0 } := by
  have hsd : 0 < sixDurMs cfg := hv.sixDur_pos
  have hbZ : (0 : ℤ) < (cfg.beats : ℤ) := by exact_mod_cast hv.beats_pos
  rw [quantizeNoteOn_unfold cfg _ T (cfg.beats + (m * cfg.beats + b)) hfb
    (Nat.le_add_right _ _)]
  rw [idealTimeline_getD hKN]
  have hraw : T - (t0 + ((cfg.beats + (m * cfg.beats + b) : ℕ) : ℚ)
      * beatDurMs cfg) = (s : ℚ) * sixDurMs cfg := by
    rw [hT]; ring
  rw [hraw]
  have hdivq : (s : ℚ) * sixDurMs cfg / sixDurMs cfg = ((s : ℕ) : ℚ) :=
    mul_div_cancel_right₀ _ hsd.ne'
  rw [hdivq, jround_natCast]
  have hKb : ((cfg.beats + (m * cfg.beats + b) : ℕ) : ℤ) - (cfg.beats : ℤ)
      = (m : ℤ) * (cfg.beats : ℤ) + (b : ℤ) := by
    push_cast; ring
  rw [hKb]
  have hnorm : normalize (spbN cfg : ℤ) (s : ℤ)
      ((m : ℤ) * (cfg.beats : ℤ) + (b : ℤ))
      = ((s : ℤ), (m : ℤ) * (cfg.beats : ℤ) + (b : ℤ)) :=
    normalize_id (by positivity) (by exact_mod_cast hs)
  rw [hnorm]
  simp only [Option.some.injEq, ActiveEntry.mk.injEq, true_and, and_true]
  refine ⟨?_, ?_, ?_⟩
  · exact fdiv_mul_add hbZ (by positivity) (by exact_mod_cast hb)
  · exact tmod_mul_add hbZ (by positivity) (by positivity) (by exact_mod_cast hb)
  · push_cast; ring

/-- Shared tail of the grid round-trip: when the nearest-beat search lands on
the following beat `K + 1`, the borrow loop still yields `(m, b, s)` with
zero deviation. -/
lemma quantize_core_at_K1 (cfg : Config) (hv : ValidConfig cfg) (t0 : ℚ)
    (m b s : ℕ) (hb : b < cfg.beats) (hs : s < spbN cfg) (T : ℚ)
    (hT : T = t0 + ((cfg.beats + (m * cfg.beats + b) : ℕ) : ℚ) * beatDurMs cfg
      + (s : ℚ) * sixDurMs cfg)
    (N : ℕ) (hKN : cfg.beats + (m * cfg.beats + b) + 1 < N)
    (hfb : (findBest cfg.beats (idealTimeline t0 (beatDurMs cfg) N) T).1
      = ((cfg.beats + (m * cfg.beats + b) + 1 : ℕ) : ℤ) - (cfg.beats : ℤ)) :
    quantizeNoteOn cfg (idealTimeline t0 (beatDurMs cfg) N) T
      = some { startTime := T, mIdx := (m : ℤ), bIdx := (b : ℤ),
               sIdx := (s : ℤ), diffMs := 0 } := by
  have hsd : 0 < sixDurMs cfg := hv.sixDur_pos
  have hbZ : (0 : ℤ) < (cfg.beats : ℤ) := by exact_mod_cast hv.beats_pos
  have hspbZ : (0 : ℤ) < (spbN cfg : ℤ) := by
    exact_mod_cast Nat.lt_of_lt_of_le (by norm_num) hv.spb_two_le
  have hbe := hv.beatDur_eq
  rw [quantizeNoteOn_unfold cfg _ T (cfg.beats + (m * cfg.beats + b) + 1) hfb
    (by omega)]
  rw [idealTimeline_getD hKN]
  have hraw : T - (t0 + ((cfg.beats + (m * cfg.beats + b) + 1 : ℕ) : ℚ)
      * beatDurMs cfg)
      = ((s : ℚ) - (spbN cfg : ℚ)) * sixDurMs cfg := by
    rw [hT, hbe]; push_cast; ring
  rw [hraw]
  have hdivq : ((s : ℚ) - (spbN cfg : ℚ)) * sixDurMs cfg / sixDurMs cfg
      = ((s : ℚ) - (spbN cfg : ℚ)) :=
    mul_div_cancel_right₀ _ hsd.ne'
  have hjr : jround ((s : ℚ) - (spbN cfg : ℚ)) = (s : ℤ) - (spbN cfg : ℤ) := by
    have hc : (s : ℚ) - (spbN cfg : ℚ)
        = (((s : ℤ) - (spbN cfg : ℤ) : ℤ) : ℚ) := by push_cast; ring
    rw [hc, jround_intCast]
  rw [hdivq, hjr]
  have hKb : ((cfg.beats + (m * cfg.beats + b) + 1 : ℕ) : ℤ) - (cfg.beats : ℤ)
      = ((m : ℤ) * (cfg.beats : ℤ) + (b : ℤ)) + 1 := by
    push_cast; ring
  rw [hKb]
  have hnorm : normalize (spbN cfg : ℤ) ((s : ℤ) - (spbN cfg : ℤ))
      (((m : ℤ) * (cfg.beats : ℤ) + (b : ℤ)) + 1)
      = ((s : ℤ), (m : ℤ) * (cfg.beats : ℤ) + (b : ℤ)) := by
    have hsZ : (s : ℤ) < (spbN cfg : ℤ) := by exact_mod_cast hs
    have h := @normalize_borrow ((spbN cfg : ℤ)) ((s : ℤ) - (spbN cfg : ℤ))
      (((m : ℤ) * (cfg.beats : ℤ) + (b : ℤ)) + 1)
      hspbZ (by omega) (by omega)
    rw [h, Prod.mk.injEq]
    omega
  rw [hnorm]
  simp only [Option.some.injEq, ActiveEntry.mk.injEq, true_and, and_true]
  refine ⟨?_, ?_, ?_⟩
  · exact fdiv_mul_add hbZ (by positivity) (by exact_mod_cast hb)
  · exact tmod_mul_add hbZ (by positivity) (by positivity) (by exact_mod_cast hb)
  · push_cast; ring

/-- An event whose compensated timestamp sits exactly on grid point
`(m, b, s)` of the ideal timeline of a full run is quantized to exactly
`(m, b, s)` with zero deviation (shared engine for the grid round-trip and
wraparound properties). -/
lemma quantize_grid_exact (cfg : Config) (hv : ValidConfig cfg) (t0 : ℚ)
    (m b s : ℕ) (hm : m < cfg.measures) (hb : b < cfg.beats)
    (hs : s < spbN cfg) (T : ℚ)
    (hT : T = t0 + ((cfg.beats + (m * cfg.beats + b) : ℕ) : ℚ) * beatDurMs cfg
      + (s : ℚ) * sixDurMs cfg) :
    quantizeNoteOn cfg
      (idealTimeline t0 (beatDurMs cfg) ((cfg.measures + 1) * cfg.beats)) T
      = some { startTime := T, mIdx := (m : ℤ), bIdx := (b : ℤ),
               sIdx := (s : ℤ), diffMs := 0 } := by
  have hbd := hv.beatDur_pos
  have hsd := hv.sixDur_pos
  have hbe := hv.beatDur_eq
  have hspb2 : 2 ≤ spbN cfg := hv.spb_two_le
  have hKb : cfg.beats ≤ cfg.beats + (m * cfg.beats + b) := Nat.le_add_right _ _
  have hKN : cfg.beats + (m * cfg.beats + b)
      < (cfg.measures + 1) * cfg.beats := by
    have h1 : (m + 1) * cfg.beats ≤ cfg.measures * cfg.beats :=
      Nat.mul_le_mul_right _ hm
    have h2 : (m + 1) * cfg.beats = m * cfg.beats + cfg.beats := by ring
    have h3 : (cfg.measures + 1) * cfg.beats
        = cfg.measures * cfg.beats + cfg.beats := by ring
    omega
  have hdiff : ∀ i : ℕ, (t0 + (i : ℚ) * beatDurMs cfg) - T
      = ((i : ℚ) - ((cfg.beats + (m * cfg.beats + b) : ℕ) : ℚ)) * beatDurMs cfg
        - (s : ℚ) * sixDurMs cfg := by
    intro i; rw [hT]; ring
  have hssd0 : 0 ≤ (s : ℚ) * sixDurMs cfg := by positivity
  have hssdlt : (s : ℚ) * sixDurMs cfg < beatDurMs cfg := by
    have h1 : (s : ℚ) + 1 ≤ (spbN cfg : ℚ) := by exact_mod_cast hs
    rw [hbe]
    nlinarith
  have habsK :
      |(t0 + ((cfg.beats + (m * cfg.beats + b) : ℕ) : ℚ) * beatDurMs cfg) - T|
        = (s : ℚ) * sixDurMs cfg := by
    rw [hdiff, sub_self, zero_mul, zero_sub, abs_neg, abs_of_nonneg hssd0]
  have habs_lt : ∀ i : ℕ, i < cfg.beats + (m * cfg.beats + b) →
      |(t0 + (i : ℚ) * beatDurMs cfg) - T|
        = (((cfg.beats + (m * cfg.beats + b) : ℕ) : ℚ) - (i : ℚ)) * beatDurMs cfg
          + (s : ℚ) * sixDurMs cfg := by
    intro i hi
    have hile : (i : ℚ) + 1 ≤ ((cfg.beats + (m * cfg.beats + b) : ℕ) : ℚ) := by
      exact_mod_cast hi
    rw [hdiff i, abs_of_nonpos (by nlinarith)]
    ring
  have habs_gt : ∀ i : ℕ, cfg.beats + (m * cfg.beats + b) < i →
      |(t0 + (i : ℚ) * beatDurMs cfg) - T|
        = ((i : ℚ) - ((cfg.beats + (m * cfg.beats + b) : ℕ) : ℚ)) * beatDurMs cfg
          - (s : ℚ) * sixDurMs cfg := by
    intro i hi
    have hige : ((cfg.beats + (m * cfg.beats + b) : ℕ) : ℚ) + 1 ≤ (i : ℚ) := by
      exact_mod_cast hi
    rw [hdiff i, abs_of_nonneg (by nlinarith)]
  by_cases hcase : 2 * s ≤ spbN cfg ∨
      (cfg.measures + 1) * cfg.beats ≤ cfg.beats + (m * cfg.beats + b) + 1
  · -- the event's own beat (or the last beat of the run) wins the search
    have hlt : ∀ i, i < cfg.beats + (m * cfg.beats + b) →
        |(fun i : ℕ => t0 + (i : ℚ) * beatDurMs cfg)
            (cfg.beats + (m * cfg.beats + b)) - T|
          < |(fun i : ℕ => t0 + (i : ℚ) * beatDurMs cfg) i - T| := by
      intro i hi
      simp only
      rw [habsK, habs_lt i hi]
      have hile : (i : ℚ) + 1 ≤ ((cfg.beats + (m * cfg.beats + b) : ℕ) : ℚ) := by
        exact_mod_cast hi
      nlinarith
    have hle : ∀ i, cfg.beats + (m * cfg.beats + b) < i →
        i < (cfg.measures + 1) * cfg.beats →
        |(fun i : ℕ => t0 + (i : ℚ) * beatDurMs cfg)
            (cfg.beats + (m * cfg.beats + b)) - T|
          ≤ |(fun i : ℕ => t0 + (i : ℚ) * beatDurMs cfg) i - T| := by
      intro i hi1 hi2
      rcases hcase with hA | hC
      · simp only
        rw [habsK, habs_gt i hi1]
        have h2s : ((2 * s : ℕ) : ℚ) ≤ (spbN cfg : ℚ) := by exact_mod_cast hA
        push_cast at h2s
        have hige : ((cfg.beats + (m * cfg.beats + b) : ℕ) : ℚ) + 1 ≤ (i : ℚ) := by
          exact_mod_cast hi1
        rw [hbe] at hssdlt ⊢
        nlinarith
      · omega
    have hspec := findBest_spec cfg.beats ((cfg.measures + 1) * cfg.beats)
      (cfg.beats + (m * cfg.beats + b))
      (fun i : ℕ => t0 + (i : ℚ) * beatDurMs cfg) T hKb hKN hlt hle
    exact quantize_core_at_K cfg hv t0 m b s hb hs T hT _ hKN
      (by rw [show idealTimeline t0 (beatDurMs cfg)
          ((cfg.measures + 1) * cfg.beats)
          = (List.range ((cfg.measures + 1) * cfg.beats)).map
              (fun i : ℕ => t0 + (i : ℚ) * beatDurMs cfg) from rfl, hspec])
  · -- the next beat wins the search and the borrow loop undoes the overshoot
    push_neg at hcase
    obtain ⟨hB1, hB2⟩ := hcase
    have hs1 : 1 ≤ s := by omega
    have habsK1 :
        |(t0 + ((cfg.beats + (m * cfg.beats + b) + 1 : ℕ) : ℚ) * beatDurMs cfg)
            - T| = beatDurMs cfg - (s : ℚ) * sixDurMs cfg := by
      have h1 : (t0 + ((cfg.beats + (m * cfg.beats + b) + 1 : ℕ) : ℚ)
          * beatDurMs cfg) - T = beatDurMs cfg - (s : ℚ) * sixDurMs cfg := by
        rw [hT]; push_cast; ring
      rw [h1, abs_of_nonneg (by nlinarith)]
    have h2s : (spbN cfg : ℚ) < ((2 * s : ℕ) : ℚ) := by exact_mod_cast hB1
    push_cast at h2s
    have hlt : ∀ i, i < cfg.beats + (m * cfg.beats + b) + 1 →
        |(fun i : ℕ => t0 + (i : ℚ) * beatDurMs cfg)
            (cfg.beats + (m * cfg.beats + b) + 1) - T|
          < |(fun i : ℕ => t0 + (i : ℚ) * beatDurMs cfg) i - T| := by
      intro i hi
      simp only
      rw [show ((cfg.beats + (m * cfg.beats + b) + 1 : ℕ) : ℚ)
        = ((cfg.beats + (m * cfg.beats + b) + 1 : ℕ) : ℚ) from rfl]
      rcases Nat.lt_succ_iff_lt_or_eq.mp hi with hiK | hiK
      · rw [habsK1, habs_lt i hiK]
        have hile : (i : ℚ) + 1
            ≤ ((cfg.beats + (m * cfg.beats + b) : ℕ) : ℚ) := by
          exact_mod_cast hiK
        have hs1Q : (1 : ℚ) ≤ (s : ℚ) := by exact_mod_cast hs1
        nlinarith
      · subst hiK
        rw [habsK1, habsK]
        rw [hbe]
        nlinarith
    have hle : ∀ i, cfg.beats + (m * cfg.beats + b) + 1 < i →
        i < (cfg.measures + 1) * cfg.beats →
        |(fun i : ℕ => t0 + (i : ℚ) * beatDurMs cfg)
            (cfg.beats + (m * cfg.beats + b) + 1) - T|
          ≤ |(fun i : ℕ => t0 + (i : ℚ) * beatDurMs cfg) i - T| := by
      intro i hi1 hi2
      simp only
      rw [habsK1, habs_gt i (by omega)]
      have hige : ((cfg.beats + (m * cfg.beats + b) : ℕ) : ℚ) + 2 ≤ (i : ℚ) := by
        exact_mod_cast hi1
      have hK1 : (1 : ℚ)
          ≤ (i : ℚ) - ((cfg.beats + (m * cfg.beats + b) : ℕ) : ℚ) := by
        linarith
      have hmul : 1 * beatDurMs cfg
          ≤ ((i : ℚ) - ((cfg.beats + (m * cfg.beats + b) : ℕ) : ℚ))
            * beatDurMs cfg :=
        mul_le_mul_of_nonneg_right hK1 hbd.le
      linarith
    have hspec := findBest_spec cfg.beats ((cfg.measures + 1) * cfg.beats)
      (cfg.beats + (m * cfg.beats + b) + 1)
      (fun i : ℕ => t0 + (i : ℚ) * beatDurMs cfg) T (by omega) hB2 hlt hle
    exact quantize_core_at_K1 cfg hv t0 m b s hb hs T hT _ hB2
      (by rw [show idealTimeline t0 (beatDurMs cfg)
          ((cfg.measures + 1) * cfg.beats)
          = (List.range ((cfg.measures + 1) * cfg.beats)).map
              (fun i : ℕ => t0 + (i : ℚ) * beatDurMs cfg) from rfl, hspec])

/-! ## Claim C2: grid round-trip -/

/-- C2. With the ideal beat timeline of a full run (`(measures+1)*beats`
beats, one every `beatDurMs` from `t0`), an event whose compensated timestamp
sits exactly on grid point `(m, b, s)` — that is, at
`targetBeatTime + s * sixteenthDurMs` for post-intro beat `m*beats + b` — is
quantized to exactly `(m, b, s)` with `deviationMs = 0`. -/
theorem grid_round_trip (cfg : Config) (hv : ValidConfig cfg) (t0 : ℚ)
    (m b s : ℕ) (hm : m < cfg.measures) (hb : b < cfg.beats)
    (hs : s < spbN cfg) (T : ℚ)
    (hT : T = t0 + ((cfg.beats + (m * cfg.beats + b) : ℕ) : ℚ) * beatDurMs cfg
      + (s : ℚ) * sixDurMs cfg) :
    quantizeNoteOn cfg
      (idealTimeline t0 (beatDurMs cfg) ((cfg.measures + 1) * cfg.beats)) T
      = some { startTime := T, mIdx := (m : ℤ), bIdx := (b : ℤ),
               sIdx := (s : ℤ), diffMs := 0 } :=
  quantize_grid_exact cfg hv t0 m b s hm hb hs T hT

/-- Witness for C2 at 4/4, 100 BPM, 4 measures, grid point
`(measure 1, beat 2, subdivision 3)`. -/
theorem grid_round_trip_witness :
    quantizeNoteOn ⟨100, 4, 4, 4⟩
      (idealTimeline 0 (beatDurMs ⟨100, 4, 4, 4⟩) ((4 + 1) * 4))
      (0 + ((4 + (1 * 4 + 2) : ℕ) : ℚ) * beatDurMs ⟨100, 4, 4, 4⟩
        + ((3 : ℕ) : ℚ) * sixDurMs ⟨100, 4, 4, 4⟩)
      = some ⟨0 + ((4 + (1 * 4 + 2) : ℕ) : ℚ) * beatDurMs ⟨100, 4, 4, 4⟩
          + ((3 : ℕ) : ℚ) * sixDurMs ⟨100, 4, 4, 4⟩,
          ((1 : ℕ) : ℤ), ((2 : ℕ) : ℤ), ((3 : ℕ) : ℤ), 0⟩ :=
  grid_round_trip ⟨100, 4, 4, 4⟩ (by decide) 0 1 2 3 (by decide) (by decide)
    (by decide) _ rfl

/-! ## Claim C3: wraparound one subdivision before a beat -/

/-- C3. An event exactly one subdivision duration before post-intro beat
`k > 0` quantizes to flat beat index `k - 1` with subdivision
`sixteenthsPerBeat - 1`; the stored subdivision index is nonnegative. -/
theorem wraparound (cfg : Config) (hv : ValidConfig cfg) (t0 : ℚ) (k : ℕ)
    (hk0 : 0 < k) (hkN : k < cfg.measures * cfg.beats) (T : ℚ)
    (hT : T = t0 + ((cfg.beats + k : ℕ) : ℚ) * beatDurMs cfg - sixDurMs cfg) :
    ∃ e : ActiveEntry,
      quantizeNoteOn cfg
        (idealTimeline t0 (beatDurMs cfg) ((cfg.measures + 1) * cfg.beats)) T
        = some e ∧
      e.mIdx * (cfg.beats : ℤ) + e.bIdx = (k : ℤ) - 1 ∧
      e.sIdx = (spbN cfg : ℤ) - 1 ∧ 0 ≤ e.sIdx := by
  have hbpos := hv.beats_pos
  have hspb2 := hv.spb_two_le
  have hmod : (k - 1) % cfg.beats < cfg.beats := Nat.mod_lt _ hbpos
  have h1 : (k - 1) / cfg.beats * cfg.beats + (k - 1) % cfg.beats = k - 1 := by
    have h := Nat.div_add_mod (k - 1) cfg.beats
    rw [Nat.mul_comm] at h
    omega
  have hdiv : (k - 1) / cfg.beats < cfg.measures := by
    apply Nat.div_lt_of_lt_mul
    rw [Nat.mul_comm] at hkN
    omega
  have hkey : cfg.beats + ((k - 1) / cfg.beats * cfg.beats
      + (k - 1) % cfg.beats) + 1 = cfg.beats + k := by
    omega
  have hQ : ((cfg.beats + ((k - 1) / cfg.beats * cfg.beats
      + (k - 1) % cfg.beats) : ℕ) : ℚ) + 1 = ((cfg.beats + k : ℕ) : ℚ) := by
    exact_mod_cast congrArg (fun n : ℕ => (n : ℚ)) hkey
  have hsQ : ((spbN cfg - 1 : ℕ) : ℚ) + 1 = (spbN cfg : ℚ) := by
    exact_mod_cast congrArg (fun n : ℕ => (n : ℚ))
      (by omega : spbN cfg - 1 + 1 = spbN cfg)
  have hTgrid : T = t0 + ((cfg.beats + ((k - 1) / cfg.beats * cfg.beats
      + (k - 1) % cfg.beats) : ℕ) : ℚ) * beatDurMs cfg
      + ((spbN cfg - 1 : ℕ) : ℚ) * sixDurMs cfg := by
    rw [hT, hv.beatDur_eq, ← hQ, ← hsQ]
    ring
  have h := quantize_grid_exact cfg hv t0 ((k - 1) / cfg.beats)
    ((k - 1) % cfg.beats) (spbN cfg - 1) hdiv hmod (by omega) T hTgrid
  refine ⟨_, h, ?_, ?_, ?_⟩
  · show (((k - 1) / cfg.beats : ℕ) : ℤ) * (cfg.beats : ℤ)
      + (((k - 1) % cfg.beats : ℕ) : ℤ) = (k : ℤ) - 1
    have h2 : (((k - 1) / cfg.beats * cfg.beats
        + (k - 1) % cfg.beats : ℕ) : ℤ) = ((k - 1 : ℕ) : ℤ) := by
      exact_mod_cast congrArg (fun n : ℕ => (n : ℤ)) h1
    push_cast [Nat.cast_sub hk0] at h2 ⊢
    linarith
  · show ((spbN cfg - 1 : ℕ) : ℤ) = (spbN cfg : ℤ) - 1
    push_cast [Nat.cast_sub (by omega : 1 ≤ spbN cfg)]
    ring
  · show (0 : ℤ) ≤ ((spbN cfg - 1 : ℕ) : ℤ)
    positivity

/-- Witness for C3 at 4/4, 100 BPM, 4 measures, one subdivision before
post-intro beat 1: the event lands on beat 0, subdivision 3. -/
theorem wraparound_witness :
    ∃ e : ActiveEntry,
      quantizeNoteOn ⟨100, 4, 4, 4⟩
        (idealTimeline 0 (beatDurMs ⟨100, 4, 4, 4⟩) ((4 + 1) * 4))
        (0 + ((4 + 1 : ℕ) : ℚ) * beatDurMs ⟨100, 4, 4, 4⟩
          - sixDurMs ⟨100, 4, 4, 4⟩) = some e ∧
      e.mIdx * ((4 : ℕ) : ℤ) + e.bIdx = ((1 : ℕ) : ℤ) - 1 ∧
      e.sIdx = (spbN ⟨100, 4, 4, 4⟩ : ℤ) - 1 ∧ 0 ≤ e.sIdx :=
  wraparound ⟨100, 4, 4, 4⟩ (by decide) 0 1 (by decide) (by decide) _ rfl

end PianoTrainer


